import Mathlib

/-!
Verification of the `squirrel.catalog.catalog` module (file
`src/squirrel/catalog/catalog.py`): the versioned catalog data structure,
its dict-like protocol, its set-algebra operations (`union`,
`intersection`, `difference`, `join`, `slice`) and driver resolution
(`CatalogSource.get_driver`), shallowly embedded in Lean.

Python dictionaries are modelled as association lists with Python's
insertion semantics: assignment to an existing key updates the value in
place, assignment to a fresh key appends at the end, and lookup returns
the first (unique, for genuine dicts) matching binding.  Fatal errors
(failed `assert` statements, `KeyError` / `AttributeError` on the
documented precondition-violation paths, `ValueError` in driver lookup)
are modelled with `Option` / `Except`: `none` / `.error` means the Python
call raises instead of returning.

The version-map protocol of `Source` (the `versions` mapping, indexing a
source by version, version membership) lives in
`src/squirrel/catalog/source.py`, which is not part of the provided
sources; those operations are modelled from the spec where noted.
-/

section AList

variable {κ α : Type} [DecidableEq κ]

/-- Lookup in a Python dict modelled as an association list:
first binding with the requested key. -/
def alistGet : List (κ × α) → κ → Option α
  | [], _ => none
  | p :: rest, k => if p.1 = k then some p.2 else alistGet rest k

/-- Python dict assignment `d[k] = v`: update the existing binding in
place, or append a new binding at the end. -/
def alistSet : List (κ × α) → κ → α → List (κ × α)
  | [], k, v => [(k, v)]
  | p :: rest, k, v => if p.1 = k then (k, v) :: rest else p :: alistSet rest k v

/-- The keys of an association list, in order. -/
def keysOf (l : List (κ × α)) : List κ := l.map Prod.fst

theorem alistGet_set_self (l : List (κ × α)) (k : κ) (v : α) :
    alistGet (alistSet l k v) k = some v := by
  induction l with
  | nil => simp [alistSet, alistGet]
  | cons p rest ih =>
    by_cases h : p.1 = k
    · simp [alistSet, h, alistGet]
    · simp [alistSet, h, alistGet, ih]

theorem alistGet_set_ne (l : List (κ × α)) (k : κ) (v : α) (j : κ) (h : j ≠ k) :
    alistGet (alistSet l k v) j = alistGet l j := by
  have hkj : ¬ k = j := fun hh => h hh.symm
  induction l with
  | nil => simp [alistSet, alistGet, hkj]
  | cons p rest ih =>
    by_cases hp : p.1 = k
    · subst hp
      simp [alistSet, alistGet, hkj]
    · simp [alistSet, hp, alistGet, ih]

theorem alistGet_none_of_not_mem_keys (l : List (κ × α)) (k : κ) (h : k ∉ keysOf l) :
    alistGet l k = none := by
  induction l with
  | nil => rfl
  | cons p rest ih =>
    simp only [keysOf, List.map_cons, List.mem_cons] at h
    push_neg at h
    have hp : ¬ p.1 = k := fun hh => h.1 hh.symm
    simp only [alistGet, if_neg hp]
    exact ih (by simp only [keysOf]; exact h.2)

theorem alistGet_isSome_of_mem_keys (l : List (κ × α)) (k : κ) (h : k ∈ keysOf l) :
    (alistGet l k).isSome := by
  induction l with
  | nil => simp [keysOf] at h
  | cons p rest ih =>
    by_cases hp : p.1 = k
    · simp [alistGet, hp]
    · have hk : k ∈ keysOf rest := by
        simp only [keysOf, List.map_cons, List.mem_cons] at h
        rcases h with h | h
        · exact absurd h.symm hp
        · simpa [keysOf] using h
      simp only [alistGet, if_neg hp]
      exact ih hk

theorem mem_keys_of_alistGet_isSome (l : List (κ × α)) (k : κ)
    (h : (alistGet l k).isSome) : k ∈ keysOf l := by
  induction l with
  | nil => simp [alistGet] at h
  | cons p rest ih =>
    by_cases hp : p.1 = k
    · simp only [keysOf, List.map_cons, List.mem_cons]
      exact Or.inl hp.symm
    · simp only [alistGet, if_neg hp] at h
      simp only [keysOf, List.map_cons, List.mem_cons]
      exact Or.inr (by simpa [keysOf] using ih h)

theorem alistGet_mem (l : List (κ × α)) (k : κ) (v : α) (h : alistGet l k = some v) :
    (k, v) ∈ l := by
  induction l with
  | nil => simp [alistGet] at h
  | cons p rest ih =>
    by_cases hp : p.1 = k
    · simp only [alistGet, if_pos hp, Option.some_inj] at h
      have hpkv : p = (k, v) := by
        rcases p with ⟨a, b⟩
        simp only at hp h
        simp [hp, h]
      rw [hpkv]
      exact List.mem_cons_self _ _
    · simp only [alistGet, if_neg hp] at h
      exact List.mem_cons_of_mem _ (ih h)

theorem alistGet_of_mem_nodup (l : List (κ × α)) (k : κ) (v : α)
    (hnd : (keysOf l).Nodup) (hmem : (k, v) ∈ l) : alistGet l k = some v := by
  induction l with
  | nil => simp at hmem
  | cons p rest ih =>
    rw [List.mem_cons] at hmem
    have hnd2 : (keysOf rest).Nodup := by
      simp only [keysOf, List.map_cons, List.nodup_cons] at hnd
      exact hnd.2
    rcases hmem with hmem | hmem
    · rw [← hmem]
      simp [alistGet]
    · have hk : k ∈ keysOf rest := by
        simp only [keysOf, List.mem_map]
        exact ⟨(k, v), hmem, rfl⟩
      have hp : ¬ p.1 = k := by
        intro hh
        have hnot : p.1 ∉ keysOf rest := by
          simp only [keysOf, List.map_cons, List.nodup_cons] at hnd
          exact hnd.1
        exact hnot (hh ▸ hk)
      simp only [alistGet, if_neg hp]
      exact ih hnd2 hmem

theorem keysOf_alistSet (l : List (κ × α)) (k : κ) (v : α) :
    keysOf (alistSet l k v) = if k ∈ keysOf l then keysOf l else keysOf l ++ [k] := by
  induction l with
  | nil => simp [alistSet, keysOf]
  | cons p rest ih =>
    by_cases hp : p.1 = k
    · have hk : k ∈ keysOf (p :: rest) := by
        simp only [keysOf, List.map_cons, List.mem_cons]
        exact Or.inl hp.symm
      rw [if_pos hk]
      simp [alistSet, hp, keysOf]
    · have hstep : keysOf (alistSet (p :: rest) k v) = p.1 :: keysOf (alistSet rest k v) := by
        simp [alistSet, hp, keysOf]
      by_cases hk : k ∈ keysOf rest
      · have hk2 : k ∈ keysOf (p :: rest) := by
          simp only [keysOf, List.map_cons, List.mem_cons]
          exact Or.inr hk
        rw [if_pos hk2, hstep, ih, if_pos hk]
        simp [keysOf]
      · have hk2 : k ∉ keysOf (p :: rest) := by
          simp only [keysOf, List.map_cons, List.mem_cons]
          push_neg
          exact ⟨fun hh => hp hh.symm, hk⟩
        rw [if_neg hk2, hstep, ih, if_neg hk]
        simp [keysOf]

theorem nodup_keys_alistSet (l : List (κ × α)) (k : κ) (v : α)
    (h : (keysOf l).Nodup) : (keysOf (alistSet l k v)).Nodup := by
  rw [keysOf_alistSet]
  by_cases hk : k ∈ keysOf l
  · rw [if_pos hk]; exact h
  · rw [if_neg hk]
    exact List.Nodup.append h (List.nodup_singleton k)
      (fun a ha hb => hk ((List.mem_singleton.mp hb) ▸ ha))

theorem mem_alistSet (l : List (κ × α)) (k : κ) (v : α) (q : κ × α)
    (h : q ∈ alistSet l k v) : q ∈ l ∨ q = (k, v) := by
  induction l with
  | nil =>
    simp only [alistSet, List.mem_singleton] at h
    exact Or.inr h
  | cons p rest ih =>
    by_cases hp : p.1 = k
    · simp only [alistSet, if_pos hp, List.mem_cons] at h
      rcases h with h | h
      · exact Or.inr h
      · exact Or.inl (List.mem_cons_of_mem _ h)
    · simp only [alistSet, if_neg hp, List.mem_cons] at h
      rcases h with h | h
      · exact Or.inl (h ▸ List.mem_cons_self _ _)
      · rcases ih h with h2 | h2
        · exact Or.inl (List.mem_cons_of_mem _ h2)
        · exact Or.inr h2

theorem alistSet_ne_nil (l : List (κ × α)) (k : κ) (v : α) : alistSet l k v ≠ [] := by
  cases l with
  | nil => simp [alistSet]
  | cons p rest =>
    by_cases hp : p.1 = k <;> simp [alistSet, hp]

theorem alistGet_append (l l2 : List (κ × α)) (k : κ) :
    alistGet (l ++ l2) k =
      match alistGet l k with
      | some v => some v
      | none => alistGet l2 k := by
  induction l with
  | nil => simp [alistGet]
  | cons p rest ih =>
    by_cases hp : p.1 = k <;> simp [alistGet, hp, ih]

end AList

/-- `squirrel.catalog.source.Source` (file not under `src/`; record shape
from the spec: driver name, driver configuration parameters, free-form
metadata).  The payload maps are opaque to the catalog; they are modelled
as string-to-string association lists. -/
structure Source where
  driver_name : String
  driver_kwargs : List (String × String)
  metadata : List (String × String)
deriving DecidableEq, Repr

/-- Python dict equality (`==` on two dicts): same key set and, for every
key, equal values; insertion order is irrelevant. -/
def dictBeq (a b : List (String × String)) : Bool :=
  a.all (fun p => alistGet b p.1 == alistGet a p.1) &&
    b.all (fun p => alistGet a p.1 == alistGet b p.1)

/-- Modelled from the spec: equality of two `Source` payloads
("Two Sources are equal iff all three fields are equal", with the two
dict fields compared by Python dict equality).  `Source.__eq__` lives in
the missing `src/squirrel/catalog/source.py`. -/
def Source.eqb (s t : Source) : Bool :=
  (s.driver_name == t.driver_name) && dictBeq s.driver_kwargs t.driver_kwargs &&
    dictBeq s.metadata t.metadata

/-- Python double-splat merge of two dicts, `{**a, **b}`: `a`'s keys in
`a`'s order (with `b`'s value winning where both define the key),
followed by `b`'s keys not in `a`, in `b`'s order. -/
def dictMerge (a b : List (String × String)) : List (String × String) :=
  a.map (fun p => (p.1, match alistGet b p.1 with | some w => w | none => p.2)) ++
    b.filter (fun p => (alistGet a p.1).isNone)

/-- Left-biased choice on options; used to state "B wins" style lookup
characterizations. -/
def oor {α : Type} (x y : Option α) : Option α :=
  match x with
  | some s => some s
  | none => y

theorem oor_none_right {α : Type} (x : Option α) : oor x none = x := by
  cases x <;> rfl

theorem oor_none_left {α : Type} (x : Option α) : oor none x = x := rfl

theorem alistGet_mapValues (a : List (String × String))
    (h : String → String → String) (k : String) :
    alistGet (a.map (fun p => (p.1, h p.1 p.2))) k = (alistGet a k).map (h k) := by
  induction a with
  | nil => simp [alistGet]
  | cons p rest ih =>
    by_cases hp : p.1 = k
    · subst hp
      simp [alistGet]
    · simp [alistGet, hp, ih]

theorem alistGet_filter_of_key_kept (b : List (String × String))
    (pred : String × String → Bool) (k : String)
    (h : ∀ q : String × String, q.1 = k → pred q = true) :
    alistGet (b.filter pred) k = alistGet b k := by
  induction b with
  | nil => simp [alistGet]
  | cons q rest ih =>
    by_cases hq : q.1 = k
    · rw [List.filter_cons, if_pos (by simp [h q hq])]
      simp [alistGet, hq]
    · rw [List.filter_cons]
      by_cases hpred : pred q = true
      · rw [if_pos (by simp [hpred])]
        simp [alistGet, hq, ih]
      · rw [if_neg (by simp [hpred])]
        simp [alistGet, hq, ih]

/-- Lookup in a double-splat merge: `b` wins, `a` is the fallback. -/
theorem alistGet_dictMerge (a b : List (String × String)) (k : String) :
    alistGet (dictMerge a b) k = oor (alistGet b k) (alistGet a k) := by
  unfold dictMerge
  rw [alistGet_append]
  rw [alistGet_mapValues a (fun x y => match alistGet b x with | some w => w | none => y) k]
  cases hak : alistGet a k with
  | some v =>
    simp only [Option.map_some']
    cases hbk : alistGet b k <;> simp [oor, hbk]
  | none =>
    simp only [Option.map_none']
    rw [alistGet_filter_of_key_kept b _ k (fun q hq => by simp [hq, hak])]
    cases hbk : alistGet b k <;> simp [oor, hbk]

/-- A versioned entry for one identifier: the `versions` mapping of the
spec's VersionedEntry, from integer version to the `Source` payload
stored at that version. -/
abbrev Entry := List (Int × Source)

/-- The `Catalog._sources` storage: identifier to versioned entry. -/
abbrev Catalog := List (String × Entry)

/-- Well-formedness of a versioned entry: nonempty, no duplicate version
keys, and every stored version is positive (so the sentinel `-1` is never
stored). -/
def EntryWF (e : Entry) : Prop :=
  e ≠ [] ∧ (keysOf e).Nodup ∧ ∀ p ∈ e, 0 < p.1

/-- Well-formedness of a catalog: no duplicate identifiers, and every
entry well-formed. -/
def CatalogWF (c : Catalog) : Prop :=
  (keysOf c).Nodup ∧ ∀ kv ∈ c, EntryWF kv.2

instance (e : Entry) : Decidable (EntryWF e) := by
  unfold EntryWF
  exact inferInstance

instance (c : Catalog) : Decidable (CatalogWF c) := by
  unfold CatalogWF
  exact inferInstance

/-- `max(versions.keys())` over a nonempty versions dict (Python `max`
raises on an empty dict; entries are never empty in a well-formed
catalog, and the `-1` result on `[]` is only a placeholder that makes the
subsequent lookup fail). -/
def maxKey : Entry → Int
  | [] => -1
  | p :: rest => rest.foldl (fun m q => max m q.1) p.1

/-- Modelled from the spec: indexing a versions-holding source by
version (`Source.__getitem__` of the missing
`src/squirrel/catalog/source.py`): the sentinel `-1` resolves to the
entry stored at the numerically greatest version key present, any other
version is looked up directly. -/
def entryGet (e : Entry) (v : Int) : Option Source :=
  if v = -1 then alistGet e (maxKey e) else alistGet e v

/-- Lookup of the payload stored for one `(identifier, version)` pair. -/
def pairGet (c : Catalog) (k : String) (v : Int) : Option Source :=
  match alistGet c k with
  | none => none
  | some e => alistGet e v

theorem foldlMax_init_le (l : Entry) (m : Int) :
    m ≤ l.foldl (fun a q => max a q.1) m := by
  induction l generalizing m with
  | nil => simp
  | cons q rest ih =>
    simp only [List.foldl_cons]
    exact le_trans (le_max_left m q.1) (ih (max m q.1))

theorem foldlMax_mem_le (l : Entry) :
    ∀ (m : Int) (p : Int × Source), p ∈ l → p.1 ≤ l.foldl (fun a q => max a q.1) m := by
  induction l with
  | nil => intro m p hp; simp at hp
  | cons q rest ih =>
    intro m p hp
    rw [List.mem_cons] at hp
    simp only [List.foldl_cons]
    rcases hp with hp | hp
    · exact le_trans (by rw [hp]; exact le_max_right m q.1) (foldlMax_init_le rest (max m q.1))
    · exact ih (max m q.1) p hp

theorem foldlMax_eq_init_or_mem (l : Entry) (m : Int) :
    l.foldl (fun a q => max a q.1) m = m ∨
      ∃ p ∈ l, l.foldl (fun a q => max a q.1) m = p.1 := by
  induction l generalizing m with
  | nil => exact Or.inl rfl
  | cons q rest ih =>
    simp only [List.foldl_cons]
    rcases ih (max m q.1) with h | h
    · rcases max_choice m q.1 with hm | hm
      · exact Or.inl (by rw [h, hm])
      · exact Or.inr ⟨q, List.mem_cons_self _ _, by rw [h, hm]⟩
    · rcases h with ⟨p, hpmem, hpeq⟩
      exact Or.inr ⟨p, List.mem_cons_of_mem _ hpmem, hpeq⟩

theorem maxKey_mem_keys (e : Entry) (h : e ≠ []) : maxKey e ∈ keysOf e := by
  cases e with
  | nil => exact absurd rfl h
  | cons p rest =>
    simp only [maxKey]
    rcases foldlMax_eq_init_or_mem rest p.1 with h2 | h2
    · rw [h2]
      simp [keysOf]
    · rcases h2 with ⟨q, hq, hqe⟩
      rw [hqe]
      simp only [keysOf, List.map_cons, List.mem_cons]
      exact Or.inr (List.mem_map_of_mem _ hq)

theorem le_maxKey_of_mem (e : Entry) (p : Int × Source) (hp : p ∈ e) : p.1 ≤ maxKey e := by
  cases e with
  | nil => simp at hp
  | cons q rest =>
    simp only [maxKey]
    rw [List.mem_cons] at hp
    rcases hp with hp | hp
    · rw [hp]
      exact foldlMax_init_le rest q.1
    · exact foldlMax_mem_le rest q.1 p hp

theorem maxKey_pos (e : Entry) (he : EntryWF e) : 0 < maxKey e := by
  rcases he with ⟨hne, _, hpos⟩
  have hmem := maxKey_mem_keys e hne
  simp only [keysOf, List.mem_map] at hmem
  rcases hmem with ⟨p, hp, hpe⟩
  exact hpe ▸ hpos p hp

theorem entryGet_pos (e : Entry) (v : Int) (hv : v ≠ -1) :
    entryGet e v = alistGet e v := by
  unfold entryGet
  rw [if_neg hv]

/-- `CatalogSource` (catalog.py lines 233-276): a `Source` bound to its
identifier, version, owning catalog, and (modelled from the spec) the
`versions` mapping holding all versions stored under its identifier. -/
structure CatalogSource where
  identifier : String
  version : Int
  source : Source
  versions : Entry
  catalog : Catalog
deriving DecidableEq, Repr

/-- Result of `Catalog.__getitem__` (catalog.py lines 81-85): either a
real `CatalogSource` or, for a missing identifier, a
`DummyCatalogSource` placeholder (catalog.py lines 291-308) carrying the
identifier and the target catalog. -/
inductive Lookup where
  | found : CatalogSource → Lookup
  | dummy : String → Catalog → Lookup
deriving DecidableEq, Repr

/-- `__contains__` on a lookup result.  On a `DummyCatalogSource` it
always reports `false` (catalog.py lines 307-308).  On a real
`CatalogSource` it is modelled from the spec as membership of the version
key in the `versions` mapping (`Source.__contains__` of the missing
`src/squirrel/catalog/source.py`). -/
def Lookup.containsVersion : Lookup → Int → Bool
  | .dummy _ _, _ => false
  | .found cs, v => (alistGet cs.versions v).isSome

/-- Build the `CatalogSource` view returned by `self.sources[identifier][-1]`:
the entry at the numerically greatest version key.  `none` models the
fatal error Python raises when the versions dict is empty (never the case
in a well-formed catalog). -/
def mkCatalogSource (c : Catalog) (id : String) (e : Entry) : Option CatalogSource :=
  (entryGet e (-1)).map (fun s => ⟨id, maxKey e, s, e, c⟩)

/-- `Catalog.__getitem__` (catalog.py lines 81-85): a missing identifier
yields a `DummyCatalogSource` (never raises on read); a present
identifier yields the `CatalogSource` at the maximum version. -/
def Catalog.getitem (c : Catalog) (id : String) : Option Lookup :=
  match alistGet c id with
  | none => some (Lookup.dummy id c)
  | some e => (mkCatalogSource c id e).map Lookup.found

/-- Inner recursion of `Catalog.__iter__` (catalog.py lines 90-92):
`for k, v in self.sources.items(): yield k, v[-1]`. -/
def iterLoop (c : Catalog) : List (String × Entry) → Option (List (String × CatalogSource))
  | [] => some []
  | kv :: rest =>
    match mkCatalogSource c kv.1 kv.2 with
    | none => none
    | some cs =>
      match iterLoop c rest with
      | none => none
      | some l => some ((kv.1, cs) :: l)

/-- `Catalog.__iter__` (catalog.py lines 90-92): iteration yields
`(identifier, CatalogSource-at-max-version)` pairs. -/
def Catalog.iter (c : Catalog) : Option (List (String × CatalogSource)) := iterLoop c c

/-- `Catalog.__setitem__` (catalog.py lines 78-79): direct assignment
`catalog[identifier] = source` stores a fresh `CatalogSource` built from
the given source at the default version 1; modelled from the spec, the
fresh source's `versions` mapping holds exactly that one version. -/
def Catalog.setDirect (c : Catalog) (id : String) (s : Source) : Catalog :=
  alistSet c id [(1, s)]

/-- The composite write `catalog[k][v] = s` used throughout the set
algebra.  For a missing identifier this is `DummyCatalogSource.__setitem__`
(catalog.py lines 301-305): `assert index > 0`, then materialize a fresh
entry holding exactly version `v` (`none` models the failed assert).
For a present identifier it is assignment into the entry's `versions`
mapping, modelled from the spec (`Source.__setitem__` of the missing
`src/squirrel/catalog/source.py`): version `v` is replaced or added,
other versions are kept. -/
def catSet (c : Catalog) (k : String) (v : Int) (s : Source) : Option Catalog :=
  match alistGet c k with
  | some e => some (alistSet c k (alistSet e v s))
  | none => if 0 < v then some (alistSet c k [(v, s)]) else none

/-- Inner loop shared by `union` (catalog.py lines 146-148) and `slice`
(catalog.py lines 118-120): write every version of one entry into the
accumulator catalog under identifier `k`. -/
def setVersions (c : Catalog) (k : String) : List (Int × Source) → Option Catalog
  | [] => some c
  | p :: rest =>
    match catSet c k p.1 p.2 with
    | none => none
    | some c2 => setVersions c2 k rest

/-- Outer loop of `Catalog.union` (catalog.py lines 141-149): for every
identifier of `other`, write all its versions on top of the accumulator
(a copy of `self`). -/
def unionLoop (acc : Catalog) : List (String × Entry) → Option Catalog
  | [] => some acc
  | kv :: rest =>
    match setVersions acc kv.1 kv.2 with
    | none => none
    | some acc2 => unionLoop acc2 rest

/-- `Catalog.union` (catalog.py lines 141-149). -/
def Catalog.union (a b : Catalog) : Option Catalog := unionLoop a b

/-- Inner loop of `Catalog.intersection` (catalog.py lines 157-161): for
each version of identifier `k` in `a1`, if `k in cat2 and ver_id in
cat2[k].versions`, assert that the payloads stored in `a1` and `a2`
agree (a failed assert, or the unreachable lookup error, is `none`) and
write the pair into the accumulator. -/
def interEntryLoop (a1 a2 : Catalog) (k : String) (acc : Catalog) :
    List (Int × Source) → Option Catalog
  | [] => some acc
  | p :: rest =>
    match alistGet a2 k with
    | none => interEntryLoop a1 a2 k acc rest
    | some e2 =>
      if (alistGet e2 p.1).isSome then
        match (alistGet a1 k).bind (fun e1 => entryGet e1 p.1), entryGet e2 p.1 with
        | some s1, some s2 =>
          if Source.eqb s1 s2 then
            match catSet acc k p.1 p.2 with
            | none => none
            | some acc2 => interEntryLoop a1 a2 k acc2 rest
          else none
        | _, _ => none
      else interEntryLoop a1 a2 k acc rest

/-- Outer loop of `Catalog.intersection` (catalog.py lines 151-162). -/
def interLoop (a1 a2 : Catalog) (acc : Catalog) : List (String × Entry) → Option Catalog
  | [] => some acc
  | kv :: rest =>
    match interEntryLoop a1 a2 kv.1 acc kv.2 with
    | none => none
    | some acc2 => interLoop a1 a2 acc2 rest

/-- `Catalog.intersection` (catalog.py lines 151-162). -/
def Catalog.intersection (a b : Catalog) : Option Catalog := interLoop a b [] a

/-- `Catalog.join` (catalog.py lines 123-126): `assert
len(self.intersection(other)) == 0`, then return the union.  A failed
assert, or an assert failure inside `intersection` itself, is `none`. -/
def Catalog.join (a b : Catalog) : Option Catalog :=
  match Catalog.intersection a b with
  | none => none
  | some i => if i.length = 0 then Catalog.union a b else none

/-- Inner loop of `Catalog.difference` (catalog.py lines 134-138): write
each `(k, ver_id)` pair of one operand that the other operand (`a2`)
does not hold.  `if k not in a_cat_2 or ver_id not in a_cat_2[k]` —
version membership on a present identifier is modelled from the spec
(`Source.__contains__` of the missing source.py) as membership in the
`versions` mapping. -/
def diffEntryLoop (a2 : Catalog) (k : String) (acc : Catalog) :
    List (Int × Source) → Option Catalog
  | [] => some acc
  | p :: rest =>
    match alistGet a2 k with
    | none =>
      match catSet acc k p.1 p.2 with
      | none => none
      | some acc2 => diffEntryLoop a2 k acc2 rest
    | some e2 =>
      if (alistGet e2 p.1).isSome then diffEntryLoop a2 k acc rest
      else
        match catSet acc k p.1 p.2 with
        | none => none
        | some acc2 => diffEntryLoop a2 k acc2 rest

/-- Outer loop of `Catalog.difference` over one operand. -/
def diffLoop (a2 : Catalog) (acc : Catalog) : List (String × Entry) → Option Catalog
  | [] => some acc
  | kv :: rest =>
    match diffEntryLoop a2 kv.1 acc kv.2 with
    | none => none
    | some acc2 => diffLoop a2 acc2 rest

/-- `Catalog.difference` (catalog.py lines 128-139): the symmetric
difference, collected by running the one-sided pass for `(self, other)`
and then for `(other, self)` into the same fresh catalog. -/
def Catalog.difference (a b : Catalog) : Option Catalog :=
  match diffLoop b [] a with
  | none => none
  | some c1 => diffLoop a c1 b

/-- Inner loop of `Catalog.slice` (catalog.py lines 118-120): for each
version key of the named identifier, read the stored source
(`cat_cp[k][v]`) and write it into the fresh catalog. -/
def sliceEntryLoop (e : Entry) (k : String) (acc : Catalog) : List Int → Option Catalog
  | [] => some acc
  | v :: rest =>
    match entryGet e v with
    | none => none
    | some s =>
      match catSet acc k v s with
      | none => none
      | some acc2 => sliceEntryLoop e k acc2 rest

/-- Outer loop of `Catalog.slice` (catalog.py lines 114-121): iterate the
requested identifiers; a missing identifier makes `cat_cp[k]` a
`DummyCatalogSource`, whose missing `versions` attribute raises
(modelled as `none`). -/
def sliceLoop (c : Catalog) (acc : Catalog) : List String → Option Catalog
  | [] => some acc
  | k :: rest =>
    match alistGet c k with
    | none => none
    | some e =>
      match sliceEntryLoop e k acc (keysOf e) with
      | none => none
      | some acc2 => sliceLoop c acc2 rest

/-- `Catalog.slice` (catalog.py lines 114-121). -/
def Catalog.slice (c : Catalog) (keys : List String) : Option Catalog :=
  sliceLoop c [] keys

/-- A driver type contributed by a plugin; it exposes the declared name
used for driver-name matching (catalog.py line 285). -/
structure DriverCls where
  name : String
deriving DecidableEq, Repr

/-- The driver instance constructed by `get_driver` (catalog.py line
286): `driver_cls(catalog=self.catalog, **{**self.driver_kwargs,
**kwargs})`, modelled as a record of the chosen driver type and the
construction arguments. -/
structure Driver where
  cls : DriverCls
  catalog : Catalog
  kwargs : List (String × String)
deriving DecidableEq, Repr

/-- Inner loop of driver lookup (catalog.py lines 284-286): first driver
type in one plugin's contribution whose declared name matches. -/
def findInPlugin : List DriverCls → String → Option DriverCls
  | [], _ => none
  | d :: rest, n => if d.name = n then some d else findInPlugin rest n

/-- Outer loop of driver lookup (catalog.py lines 283-286) over all
plugins' contributions. -/
def findDriver : List (List DriverCls) → String → Option DriverCls
  | [], _ => none
  | plugin :: rest, n =>
    match findInPlugin plugin n with
    | some d => some d
    | none => findDriver rest n

/-- `CatalogSource.get_driver` (catalog.py lines 278-288): resolve the
driver type whose name matches `driver_name` among the plugin-registered
driver types; on a match construct the driver with the owning catalog
and the stored kwargs merged with the call-site overrides (overrides
win); otherwise raise `ValueError(f"Driver NAME not found.")`. -/
def get_driver (plugins : List (List DriverCls)) (cs : CatalogSource)
    (kwargs : List (String × String)) : Except String Driver :=
  match findDriver plugins cs.source.driver_name with
  | some cls => Except.ok ⟨cls, cs.catalog, dictMerge cs.source.driver_kwargs kwargs⟩
  | none => Except.error ("Driver " ++ cs.source.driver_name ++ " not found.")

theorem findInPlugin_name (l : List DriverCls) (n : String) (d : DriverCls)
    (h : findInPlugin l n = some d) : d.name = n := by
  induction l with
  | nil => simp [findInPlugin] at h
  | cons q rest ih =>
    by_cases hq : q.name = n
    · simp only [findInPlugin, if_pos hq, Option.some_inj] at h
      rw [← h]
      exact hq
    · simp only [findInPlugin, if_neg hq] at h
      exact ih h

theorem findDriver_name (ps : List (List DriverCls)) (n : String) (d : DriverCls)
    (h : findDriver ps n = some d) : d.name = n := by
  induction ps with
  | nil => simp [findDriver] at h
  | cons plugin rest ih =>
    cases hp : findInPlugin plugin n with
    | some d2 =>
      simp only [findDriver, hp, Option.some_inj] at h
      exact h ▸ findInPlugin_name plugin n d2 hp
    | none =>
      simp only [findDriver, hp] at h
      exact ih h

theorem catSet_some (c : Catalog) (k : String) (v : Int) (s : Source) (hv : 0 < v) :
    (catSet c k v s).isSome := by
  unfold catSet
  cases h : alistGet c k with
  | some e => simp
  | none => simp [hv]

theorem catSet_pairGet (c : Catalog) (k : String) (v : Int) (s : Source) (c2 : Catalog)
    (h : catSet c k v s = some c2) (i : String) (w : Int) :
    pairGet c2 i w = if i = k ∧ w = v then some s else pairGet c i w := by
  unfold catSet at h
  by_cases hik : i = k
  · subst hik
    cases hck : alistGet c i with
    | some e =>
      rw [hck] at h
      simp only [Option.some_inj] at h
      subst h
      by_cases hwv : w = v
      · subst hwv
        simp [pairGet, alistGet_set_self]
      · simp only [pairGet, alistGet_set_self]
        rw [alistGet_set_ne e v s w hwv]
        simp [hwv, hck]
    | none =>
      rw [hck] at h
      by_cases hv2 : 0 < v
      · rw [if_pos hv2] at h
        simp only [Option.some_inj] at h
        subst h
        by_cases hwv : w = v
        · subst hwv
          simp [pairGet, alistGet_set_self, alistGet]
        · simp only [pairGet, alistGet_set_self]
          have hvw : ¬ v = w := fun hh => hwv hh.symm
          simp [alistGet, hvw, hwv, hck]
      · rw [if_neg hv2] at h
        exact absurd h (by simp)
  · have hki : ¬ k = i := fun hh => hik hh.symm
    have hget : alistGet c2 i = alistGet c i := by
      cases hck : alistGet c k with
      | some e =>
        rw [hck] at h
        simp only [Option.some_inj] at h
        subst h
        exact alistGet_set_ne c k (alistSet e v s) i hik
      | none =>
        rw [hck] at h
        by_cases hv : 0 < v
        · rw [if_pos hv] at h
          simp only [Option.some_inj] at h
          subst h
          exact alistGet_set_ne c k [(v, s)] i hik
        · rw [if_neg hv] at h
          exact absurd h (by simp)
    simp only [pairGet, hget, hik, false_and, if_false]

theorem catSet_WF (c : Catalog) (k : String) (v : Int) (s : Source) (c2 : Catalog)
    (hc : CatalogWF c) (hv : 0 < v) (h : catSet c k v s = some c2) : CatalogWF c2 := by
  rcases hc with ⟨hnd, hent⟩
  unfold catSet at h
  cases hck : alistGet c k with
  | some e =>
    rw [hck] at h
    simp only [Option.some_inj] at h
    subst h
    have he : EntryWF e := hent (k, e) (alistGet_mem c k e hck)
    constructor
    · exact nodup_keys_alistSet c k _ hnd
    · intro kv hkv
      rcases mem_alistSet c k _ kv hkv with h2 | h2
      · exact hent kv h2
      · rw [h2]
        rcases he with ⟨_, hend, hepos⟩
        refine ⟨alistSet_ne_nil e v s, nodup_keys_alistSet e v s hend, ?_⟩
        intro p hp
        rcases mem_alistSet e v s p hp with h3 | h3
        · exact hepos p h3
        · rw [h3]; exact hv
  | none =>
    rw [hck, if_pos hv] at h
    simp only [Option.some_inj] at h
    subst h
    constructor
    · exact nodup_keys_alistSet c k _ hnd
    · intro kv hkv
      rcases mem_alistSet c k _ kv hkv with h2 | h2
      · exact hent kv h2
      · rw [h2]
        refine ⟨by simp, by simp [keysOf], ?_⟩
        intro p hp
        simp only [List.mem_singleton] at hp
        subst hp
        exact hv

theorem pairGet_nil (i : String) (w : Int) : pairGet [] i w = none := rfl

theorem pairGet_cons (kv : String × Entry) (rest : Catalog) (i : String) (w : Int) :
    pairGet (kv :: rest) i w = if kv.1 = i then alistGet kv.2 w else pairGet rest i w := by
  simp only [pairGet, alistGet]
  by_cases h : kv.1 = i <;> simp [h]

theorem pairGet_none_of_not_mem (c : Catalog) (i : String) (w : Int) (h : i ∉ keysOf c) :
    pairGet c i w = none := by
  simp [pairGet, alistGet_none_of_not_mem_keys c i h]

/-- Characterization of the shared inner write loop: after writing all
pairs of a duplicate-free, positive-versioned list under identifier `k`,
lookups under `k` see the written pairs first and fall back to the old
catalog; other identifiers are untouched. -/
theorem setVersions_char (e : List (Int × Source)) :
    ∀ (c : Catalog) (k : String), CatalogWF c → (keysOf e).Nodup → (∀ p ∈ e, 0 < p.1) →
    ∃ c2, setVersions c k e = some c2 ∧ CatalogWF c2 ∧
      ∀ i w, pairGet c2 i w =
        if i = k then oor (alistGet e w) (pairGet c i w) else pairGet c i w := by
  induction e with
  | nil =>
    intro c k hc _ _
    refine ⟨c, rfl, hc, fun i w => ?_⟩
    by_cases hik : i = k <;> simp [hik, alistGet, oor]
  | cons p rest ih =>
    intro c k hc hnd hpos
    simp only [keysOf, List.map_cons, List.nodup_cons] at hnd
    have hv : 0 < p.1 := hpos p (List.mem_cons_self _ _)
    have hsome := catSet_some c k p.1 p.2 hv
    cases hcs : catSet c k p.1 p.2 with
    | none => rw [hcs] at hsome; simp at hsome
    | some c1 =>
      have hc1 : CatalogWF c1 := catSet_WF c k p.1 p.2 c1 hc hv hcs
      have hpos2 : ∀ q ∈ rest, 0 < q.1 := fun q hq => hpos q (List.mem_cons_of_mem _ hq)
      rcases ih c1 k hc1 (by simpa [keysOf] using hnd.2) hpos2 with ⟨c2, hset, hc2, hchar⟩
      refine ⟨c2, by simp only [setVersions, hcs, hset], hc2, ?_⟩
      intro i w
      have hstep := catSet_pairGet c k p.1 p.2 c1 hcs
      rw [hchar i w]
      by_cases hik : i = k
      · subst hik
        rw [if_pos rfl, if_pos rfl]
        by_cases hw : p.1 = w
        · subst hw
          have hrest : alistGet rest p.1 = none :=
            alistGet_none_of_not_mem_keys rest p.1 (by simpa [keysOf] using hnd.1)
          rw [hrest]
          simp only [oor]
          rw [hstep i p.1]
          simp [alistGet]
        · have hhead : alistGet (p :: rest) w = alistGet rest w := by
            simp [alistGet, hw]
          have hwp : ¬ (i = i ∧ w = p.1) := fun hh => hw hh.2.symm
          rw [hhead, hstep i w, if_neg hwp]
      · rw [if_neg hik, if_neg hik, hstep i w]
        simp [hik]

/-- Characterization of `unionLoop`: writing every `(identifier, version)`
pair of a well-formed operand on top of an accumulator gives "the operand
wins, the accumulator is the fallback" per-pair lookup. -/
theorem unionLoop_char (l : List (String × Entry)) :
    ∀ (acc : Catalog), CatalogWF acc → (keysOf l).Nodup →
      (∀ kv ∈ l, (keysOf kv.2).Nodup ∧ ∀ p ∈ kv.2, 0 < p.1) →
    ∃ u, unionLoop acc l = some u ∧ CatalogWF u ∧
      ∀ i w, pairGet u i w = oor (pairGet l i w) (pairGet acc i w) := by
  induction l with
  | nil =>
    intro acc hacc _ _
    exact ⟨acc, rfl, hacc, fun i w => rfl⟩
  | cons kv rest ih =>
    intro acc hacc hnd hent
    simp only [keysOf, List.map_cons, List.nodup_cons] at hnd
    obtain ⟨hke, hkp⟩ := hent kv (List.mem_cons_self _ _)
    rcases setVersions_char kv.2 acc kv.1 hacc hke hkp with ⟨acc1, hsv, hacc1, hchar1⟩
    rcases ih acc1 hacc1 (by simpa [keysOf] using hnd.2)
        (fun q hq => hent q (List.mem_cons_of_mem _ hq)) with ⟨u, hu, hwfu, hchar⟩
    refine ⟨u, by simp only [unionLoop, hsv, hu], hwfu, ?_⟩
    intro i w
    rw [hchar i w, hchar1 i w, pairGet_cons]
    by_cases hik : kv.1 = i
    · rw [if_pos hik, if_pos hik.symm]
      have hrest : pairGet rest i w = none :=
        pairGet_none_of_not_mem rest i w (by rw [← hik]; simpa [keysOf] using hnd.1)
      rw [hrest]
      rfl
    · rw [if_neg hik, if_neg (fun hh : i = kv.1 => hik hh.symm)]

/-- Lookup characterization of `Catalog.union` ("B wins on conflict"). -/
theorem union_char (a b : Catalog) (ha : CatalogWF a) (hb : CatalogWF b) :
    ∃ u, Catalog.union a b = some u ∧ CatalogWF u ∧
      ∀ i w, pairGet u i w = oor (pairGet b i w) (pairGet a i w) :=
  unionLoop_char b a ha hb.1 (fun kv h => ⟨(hb.2 kv h).2.1, (hb.2 kv h).2.2⟩)

/-- The per-pair result of an intersection: the first operand's payload,
kept only when the second operand also holds the pair. -/
def interPick (x y : Option Source) : Option Source :=
  match x, y with
  | some s, some _ => some s
  | _, _ => none

/-- The assert inside `Catalog.intersection` at one `(identifier, version)`
pair of the left operand: trivially true when the right operand does not
hold the pair, payload equality otherwise. -/
def agreeAt (b : Catalog) (k : String) (p : Int × Source) : Bool :=
  match pairGet b k p.1 with
  | some s2 => Source.eqb p.2 s2
  | none => true

/-- All asserts of `Catalog.intersection a b` pass: every pair of `a`
that `b` also holds carries an equal payload in both. -/
def SharedAgree (a b : Catalog) : Prop :=
  ∀ kv ∈ a, ∀ p ∈ kv.2, agreeAt b kv.1 p = true

instance (a b : Catalog) : Decidable (SharedAgree a b) := by
  unfold SharedAgree
  exact inferInstance

theorem interPick_none_right (x : Option Source) : interPick x none = none := by
  cases x <;> rfl

theorem interPick_none_left (y : Option Source) : interPick none y = none := rfl

theorem agreeAt_true (b : Catalog) (k : String) (p : Int × Source)
    (h : agreeAt b k p = true) (s2 : Source) (hs : pairGet b k p.1 = some s2) :
    Source.eqb p.2 s2 = true := by
  unfold agreeAt at h
  rw [hs] at h
  exact h

theorem agreeAt_of_forall (b : Catalog) (k : String) (p : Int × Source)
    (h : ∀ s2, pairGet b k p.1 = some s2 → Source.eqb p.2 s2 = true) :
    agreeAt b k p = true := by
  unfold agreeAt
  cases hs : pairGet b k p.1 with
  | none => rfl
  | some s2 => exact h s2 hs

theorem interEntryLoop_char (a1 a2 : Catalog) (k : String) (ea : Entry)
    (ha1 : alistGet a1 k = some ea) (hnd : (keysOf ea).Nodup)
    (hpos : ∀ p ∈ ea, 0 < p.1) :
    ∀ (l : List (Int × Source)) (acc : Catalog), CatalogWF acc →
      (keysOf l).Nodup → (∀ p ∈ l, p ∈ ea) →
      (∀ p ∈ l, agreeAt a2 k p = true) →
    ∃ r, interEntryLoop a1 a2 k acc l = some r ∧ CatalogWF r ∧
      ∀ i w, pairGet r i w =
        if i = k then oor (interPick (alistGet l w) (pairGet a2 k w)) (pairGet acc i w)
        else pairGet acc i w := by
  intro l
  induction l with
  | nil =>
    intro acc hacc _ _ _
    refine ⟨acc, rfl, hacc, fun i w => ?_⟩
    by_cases hik : i = k <;> simp [hik, alistGet, interPick, oor]
  | cons p rest ih =>
    intro acc hacc hndl hsub hagree
    simp only [keysOf, List.map_cons, List.nodup_cons] at hndl
    have hpmem : p ∈ ea := hsub p (List.mem_cons_self _ _)
    have hppos : 0 < p.1 := hpos p hpmem
    have hrest_sub : ∀ q ∈ rest, q ∈ ea := fun q hq => hsub q (List.mem_cons_of_mem _ hq)
    have hrest_agree : ∀ q ∈ rest, agreeAt a2 k q = true :=
      fun q hq => hagree q (List.mem_cons_of_mem _ hq)
    have hrest_nd : (keysOf rest).Nodup := by simpa [keysOf] using hndl.2
    have hrest_none : alistGet rest p.1 = none :=
      alistGet_none_of_not_mem_keys rest p.1 (by simpa [keysOf] using hndl.1)
    cases ha2k : alistGet a2 k with
    | none =>
      rcases ih acc hacc hrest_nd hrest_sub hrest_agree with ⟨r, hr, hwfr, hchar⟩
      refine ⟨r, by simp only [interEntryLoop, ha2k, hr], hwfr, fun i w => ?_⟩
      rw [hchar i w]
      by_cases hik : i = k
      · subst hik
        have hb : pairGet a2 i w = none := by simp [pairGet, ha2k]
        rw [hb, interPick_none_right, interPick_none_right]
      · simp [hik]
    | some e2 =>
      have hbval : ∀ w, pairGet a2 k w = alistGet e2 w := by
        intro w
        simp [pairGet, ha2k]
      by_cases hguard : (alistGet e2 p.1).isSome
      · obtain ⟨s2, hs2⟩ := Option.isSome_iff_exists.mp hguard
        have hget1 : (alistGet a1 k).bind (fun e1 => entryGet e1 p.1) = some p.2 := by
          rw [ha1]
          simp only [Option.some_bind]
          rw [entryGet_pos ea p.1 (by omega)]
          exact alistGet_of_mem_nodup ea p.1 p.2 hnd hpmem
        have hget2 : entryGet e2 p.1 = some s2 := by
          rw [entryGet_pos e2 p.1 (by omega)]
          exact hs2
        have heqb : Source.eqb p.2 s2 = true :=
          agreeAt_true a2 k p (hagree p (List.mem_cons_self _ _)) s2 (by rw [hbval, hs2])
        have hsome := catSet_some acc k p.1 p.2 hppos
        cases hcs : catSet acc k p.1 p.2 with
        | none => rw [hcs] at hsome; simp at hsome
        | some acc1 =>
          have hacc1 : CatalogWF acc1 := catSet_WF acc k p.1 p.2 acc1 hacc hppos hcs
          rcases ih acc1 hacc1 hrest_nd hrest_sub hrest_agree with ⟨r, hr, hwfr, hchar⟩
          have hstep := catSet_pairGet acc k p.1 p.2 acc1 hcs
          refine ⟨r, ?_, hwfr, fun i w => ?_⟩
          · simp only [interEntryLoop, ha2k, hguard, if_true, hget1, hget2, heqb, hcs, hr]
          · rw [hchar i w]
            by_cases hik : i = k
            · subst hik
              rw [if_pos rfl, if_pos rfl]
              by_cases hw : p.1 = w
              · subst hw
                rw [hrest_none, hbval, hs2]
                simp only [interPick, oor]
                rw [hstep i p.1, if_pos ⟨rfl, rfl⟩]
                simp [alistGet]
              · have hhead : alistGet (p :: rest) w = alistGet rest w := by
                  simp [alistGet, hw]
                have hwp : ¬ (i = i ∧ w = p.1) := fun hh => hw hh.2.symm
                rw [hhead, hstep i w, if_neg hwp]
            · rw [if_neg hik, if_neg hik, hstep i w,
                if_neg (fun hh : i = k ∧ w = p.1 => hik hh.1)]
      · rcases ih acc hacc hrest_nd hrest_sub hrest_agree with ⟨r, hr, hwfr, hchar⟩
        have hnone : alistGet e2 p.1 = none := by
          cases h2 : alistGet e2 p.1 with
          | none => rfl
          | some s2 => rw [h2] at hguard; simp at hguard
        refine ⟨r, by simp [interEntryLoop, ha2k, hnone, hr], hwfr,
          fun i w => ?_⟩
        rw [hchar i w]
        by_cases hik : i = k
        · subst hik
          rw [if_pos rfl, if_pos rfl]
          by_cases hw : p.1 = w
          · subst hw
            rw [hrest_none, hbval, hnone]
            simp [interPick, alistGet]
          · have hhead : alistGet (p :: rest) w = alistGet rest w := by
              simp [alistGet, hw]
            rw [hhead]
        · simp [hik]

theorem pairGet_of_mem (a : Catalog) (ha : CatalogWF a) (kv : String × Entry)
    (hkv : kv ∈ a) (p : Int × Source) (hp : p ∈ kv.2) :
    pairGet a kv.1 p.1 = some p.2 := by
  have hget : alistGet a kv.1 = some kv.2 :=
    alistGet_of_mem_nodup a kv.1 kv.2 ha.1 (by rw [Prod.mk.eta]; exact hkv)
  have hwf := ha.2 kv hkv
  simp only [pairGet, hget]
  exact alistGet_of_mem_nodup kv.2 p.1 p.2 hwf.2.1 (by rw [Prod.mk.eta]; exact hp)

theorem interLoop_char (a1 a2 : Catalog) (ha1 : CatalogWF a1) :
    ∀ (l : List (String × Entry)) (acc : Catalog), CatalogWF acc →
      (∀ kv ∈ l, kv ∈ a1) → (keysOf l).Nodup →
      (∀ kv ∈ l, ∀ p ∈ kv.2, agreeAt a2 kv.1 p = true) →
    ∃ r, interLoop a1 a2 acc l = some r ∧ CatalogWF r ∧
      ∀ i w, pairGet r i w =
        oor (interPick (pairGet l i w) (pairGet a2 i w)) (pairGet acc i w) := by
  intro l
  induction l with
  | nil =>
    intro acc hacc _ _ _
    refine ⟨acc, rfl, hacc, fun i w => ?_⟩
    rw [pairGet_nil, interPick_none_left]
    rfl
  | cons kv rest ih =>
    intro acc hacc hsub hnd hagree
    simp only [keysOf, List.map_cons, List.nodup_cons] at hnd
    have hkvmem : kv ∈ a1 := hsub kv (List.mem_cons_self _ _)
    have hget : alistGet a1 kv.1 = some kv.2 :=
      alistGet_of_mem_nodup a1 kv.1 kv.2 ha1.1 (by rw [Prod.mk.eta]; exact hkvmem)
    have hwf := ha1.2 kv hkvmem
    rcases interEntryLoop_char a1 a2 kv.1 kv.2 hget hwf.2.1 hwf.2.2 kv.2 acc hacc
        hwf.2.1 (fun p hp => hp) (hagree kv (List.mem_cons_self _ _)) with
      ⟨acc1, h1, hacc1, hchar1⟩
    rcases ih acc1 hacc1 (fun q hq => hsub q (List.mem_cons_of_mem _ hq))
        (by simpa [keysOf] using hnd.2)
        (fun q hq => hagree q (List.mem_cons_of_mem _ hq)) with ⟨r, hr, hwfr, hchar⟩
    refine ⟨r, by simp only [interLoop, h1, hr], hwfr, fun i w => ?_⟩
    rw [hchar i w, hchar1 i w, pairGet_cons]
    by_cases hik : kv.1 = i
    · rw [if_pos hik, if_pos hik.symm]
      have hrest : pairGet rest i w = none :=
        pairGet_none_of_not_mem rest i w (by rw [← hik]; simpa [keysOf] using hnd.1)
      rw [hrest, interPick_none_left, hik]
      rfl
    · rw [if_neg hik, if_neg (fun hh : i = kv.1 => hik hh.symm)]

/-- Lookup characterization of `Catalog.intersection` when every assert
passes. -/
theorem intersection_char (a b : Catalog) (ha : CatalogWF a) (hb : CatalogWF b)
    (hagree : SharedAgree a b) :
    ∃ r, Catalog.intersection a b = some r ∧ CatalogWF r ∧
      ∀ i w, pairGet r i w = interPick (pairGet a i w) (pairGet b i w) := by
  rcases interLoop_char a b ha a [] ⟨by simp [keysOf], by simp⟩ (fun kv h => h) ha.1 hagree
    with ⟨r, hr, hwfr, hchar⟩
  refine ⟨r, hr, hwfr, fun i w => ?_⟩
  rw [hchar i w, pairGet_nil, oor_none_right]

theorem interEntryLoop_some_agree (a1 a2 : Catalog) (k : String) (ea : Entry)
    (ha1 : alistGet a1 k = some ea) (hnd : (keysOf ea).Nodup)
    (hpos : ∀ p ∈ ea, 0 < p.1) :
    ∀ (l : List (Int × Source)) (acc r : Catalog),
      (∀ p ∈ l, p ∈ ea) →
      interEntryLoop a1 a2 k acc l = some r →
      ∀ p ∈ l, agreeAt a2 k p = true := by
  intro l
  induction l with
  | nil => intro acc r _ _ p hp; simp at hp
  | cons q rest ih =>
    intro acc r hsub hrun p hp
    have hqmem : q ∈ ea := hsub q (List.mem_cons_self _ _)
    have hqpos : 0 < q.1 := hpos q hqmem
    have hrest_sub : ∀ x ∈ rest, x ∈ ea := fun x hx => hsub x (List.mem_cons_of_mem _ hx)
    rw [List.mem_cons] at hp
    cases ha2k : alistGet a2 k with
    | none =>
      have hbnone : ∀ w, pairGet a2 k w = none := fun w => by simp [pairGet, ha2k]
      rcases hp with hp | hp
      · subst hp
        exact agreeAt_of_forall a2 k p (fun s2 hs => absurd hs (by rw [hbnone]; simp))
      · have hrun2 : interEntryLoop a1 a2 k acc rest = some r := by
          simpa only [interEntryLoop, ha2k] using hrun
        exact ih acc r hrest_sub hrun2 p hp
    | some e2 =>
      have hbval : ∀ w, pairGet a2 k w = alistGet e2 w := fun w => by simp [pairGet, ha2k]
      by_cases hguard : (alistGet e2 q.1).isSome
      · obtain ⟨s2, hs2⟩ := Option.isSome_iff_exists.mp hguard
        have hget1 : (alistGet a1 k).bind (fun e1 => entryGet e1 q.1) = some q.2 := by
          rw [ha1]
          simp only [Option.some_bind]
          rw [entryGet_pos ea q.1 (by omega)]
          exact alistGet_of_mem_nodup ea q.1 q.2 hnd hqmem
        have hget2 : entryGet e2 q.1 = some s2 := by
          rw [entryGet_pos e2 q.1 (by omega)]
          exact hs2
        simp only [interEntryLoop, ha2k, hguard, if_true, hget1, hget2] at hrun
        by_cases heqb : Source.eqb q.2 s2 = true
        · rcases hp with hp | hp
          · subst hp
            apply agreeAt_of_forall
            intro t ht
            rw [hbval, hs2] at ht
            simp only [Option.some_inj] at ht
            rw [← ht]
            exact heqb
          · have hsome := catSet_some acc k q.1 q.2 hqpos
            cases hcs : catSet acc k q.1 q.2 with
            | none => rw [hcs] at hsome; simp at hsome
            | some acc1 =>
              rw [if_pos heqb, hcs] at hrun
              exact ih acc1 r hrest_sub hrun p hp
        · rw [if_neg heqb] at hrun
          exact absurd hrun (by simp)
      · have hnone : alistGet e2 q.1 = none := by
          cases h2 : alistGet e2 q.1 with
          | none => rfl
          | some s2 => rw [h2] at hguard; simp at hguard
        have hrun2 : interEntryLoop a1 a2 k acc rest = some r := by
          simpa only [interEntryLoop, ha2k, hnone, Option.isSome_none,
            Bool.false_eq_true, if_false] using hrun
        rcases hp with hp | hp
        · subst hp
          apply agreeAt_of_forall
          intro s2 hs
          rw [hbval, hnone] at hs
          exact absurd hs (by simp)
        · exact ih acc r hrest_sub hrun2 p hp

theorem interLoop_some_agree (a1 a2 : Catalog) (ha1 : CatalogWF a1) :
    ∀ (l : List (String × Entry)) (acc r : Catalog),
      (∀ kv ∈ l, kv ∈ a1) →
      interLoop a1 a2 acc l = some r →
      ∀ kv ∈ l, ∀ p ∈ kv.2, agreeAt a2 kv.1 p = true := by
  intro l
  induction l with
  | nil => intro acc r _ _ kv hkv; simp at hkv
  | cons kv0 rest ih =>
    intro acc r hsub hrun kv hkv
    cases h1 : interEntryLoop a1 a2 kv0.1 acc kv0.2 with
    | none =>
      rw [show interLoop a1 a2 acc (kv0 :: rest) =
          (match interEntryLoop a1 a2 kv0.1 acc kv0.2 with
           | none => none
           | some acc2 => interLoop a1 a2 acc2 rest) from rfl, h1] at hrun
      exact absurd hrun (by simp)
    | some acc1 =>
      have hrun2 : interLoop a1 a2 acc1 rest = some r := by
        simpa only [interLoop, h1] using hrun
      rw [List.mem_cons] at hkv
      rcases hkv with hkv | hkv
      · subst hkv
        have hmem : kv ∈ a1 := hsub kv (List.mem_cons_self _ _)
        have hget : alistGet a1 kv.1 = some kv.2 :=
          alistGet_of_mem_nodup a1 kv.1 kv.2 ha1.1 (by rw [Prod.mk.eta]; exact hmem)
        have hwf := ha1.2 kv hmem
        exact interEntryLoop_some_agree a1 a2 kv.1 kv.2 hget hwf.2.1 hwf.2.2 kv.2
          acc acc1 (fun p hp => hp) h1
      · exact ih acc1 r (fun q hq => hsub q (List.mem_cons_of_mem _ hq)) hrun2 kv hkv

theorem intersection_some_agree (a b : Catalog) (ha : CatalogWF a) (r : Catalog)
    (h : Catalog.intersection a b = some r) : SharedAgree a b :=
  fun kv hkv p hp => interLoop_some_agree a b ha a [] r (fun kv h => h) h kv hkv p hp

theorem intersection_none_of_not_agree (a b : Catalog) (ha : CatalogWF a)
    (h : ¬ SharedAgree a b) : Catalog.intersection a b = none := by
  cases hr : Catalog.intersection a b with
  | none => rfl
  | some r => exact absurd (intersection_some_agree a b ha r hr) h

/-- Two catalogs share no `(identifier, version)` pair. -/
def DisjointPairs (a b : Catalog) : Prop :=
  ∀ kv ∈ a, ∀ p ∈ kv.2, pairGet b kv.1 p.1 = none

instance (a b : Catalog) : Decidable (DisjointPairs a b) := by
  unfold DisjointPairs
  exact inferInstance

theorem interEntryLoop_disjoint (a1 a2 : Catalog) (k : String) :
    ∀ (l : List (Int × Source)) (acc : Catalog),
      (∀ p ∈ l, pairGet a2 k p.1 = none) →
      interEntryLoop a1 a2 k acc l = some acc := by
  intro l
  induction l with
  | nil => intro acc _; rfl
  | cons p rest ih =>
    intro acc hdis
    have hp := hdis p (List.mem_cons_self _ _)
    have hrest : ∀ q ∈ rest, pairGet a2 k q.1 = none :=
      fun q hq => hdis q (List.mem_cons_of_mem _ hq)
    cases ha2k : alistGet a2 k with
    | none =>
      simp only [interEntryLoop, ha2k]
      exact ih acc hrest
    | some e2 =>
      have hnone : alistGet e2 p.1 = none := by
        rw [show pairGet a2 k p.1 = alistGet e2 p.1 from by simp [pairGet, ha2k]] at hp
        exact hp
      simp only [interEntryLoop, ha2k, hnone, Option.isSome_none, Bool.false_eq_true,
        if_false]
      exact ih acc hrest

theorem interLoop_disjoint (a1 a2 : Catalog) :
    ∀ (l : List (String × Entry)) (acc : Catalog),
      (∀ kv ∈ l, ∀ p ∈ kv.2, pairGet a2 kv.1 p.1 = none) →
      interLoop a1 a2 acc l = some acc := by
  intro l
  induction l with
  | nil => intro acc _; rfl
  | cons kv rest ih =>
    intro acc hdis
    have h1 : interEntryLoop a1 a2 kv.1 acc kv.2 = some acc :=
      interEntryLoop_disjoint a1 a2 kv.1 kv.2 acc (hdis kv (List.mem_cons_self _ _))
    simp only [interLoop, h1]
    exact ih acc (fun q hq => hdis q (List.mem_cons_of_mem _ hq))

theorem intersection_disjoint (a b : Catalog) (h : DisjointPairs a b) :
    Catalog.intersection a b = some [] :=
  interLoop_disjoint a b a [] h

/-- The per-pair result of one `difference` pass: the first operand's
payload, kept only when the second operand does not hold the pair. -/
def exclPick (x y : Option Source) : Option Source :=
  match x, y with
  | some s, none => some s
  | _, _ => none

theorem exclPick_none_left (y : Option Source) : exclPick none y = none := by
  cases y <;> rfl

theorem diffEntryLoop_char (a2 : Catalog) (k : String) :
    ∀ (l : List (Int × Source)) (acc : Catalog), CatalogWF acc →
      (keysOf l).Nodup → (∀ p ∈ l, 0 < p.1) →
    ∃ r, diffEntryLoop a2 k acc l = some r ∧ CatalogWF r ∧
      ∀ i w, pairGet r i w =
        if i = k then oor (exclPick (alistGet l w) (pairGet a2 k w)) (pairGet acc i w)
        else pairGet acc i w := by
  intro l
  induction l with
  | nil =>
    intro acc hacc _ _
    refine ⟨acc, rfl, hacc, fun i w => ?_⟩
    by_cases hik : i = k <;> simp [hik, alistGet, exclPick_none_left, oor]
  | cons p rest ih =>
    intro acc hacc hnd hpos
    simp only [keysOf, List.map_cons, List.nodup_cons] at hnd
    have hppos : 0 < p.1 := hpos p (List.mem_cons_self _ _)
    have hrest_pos : ∀ q ∈ rest, 0 < q.1 := fun q hq => hpos q (List.mem_cons_of_mem _ hq)
    have hrest_nd : (keysOf rest).Nodup := by simpa [keysOf] using hnd.2
    have hrest_none : alistGet rest p.1 = none :=
      alistGet_none_of_not_mem_keys rest p.1 (by simpa [keysOf] using hnd.1)
    cases ha2k : alistGet a2 k with
    | none =>
      have hbnone : ∀ w, pairGet a2 k w = none := fun w => by simp [pairGet, ha2k]
      have hsome := catSet_some acc k p.1 p.2 hppos
      cases hcs : catSet acc k p.1 p.2 with
      | none => rw [hcs] at hsome; simp at hsome
      | some acc1 =>
        have hacc1 : CatalogWF acc1 := catSet_WF acc k p.1 p.2 acc1 hacc hppos hcs
        rcases ih acc1 hacc1 hrest_nd hrest_pos with ⟨r, hr, hwfr, hchar⟩
        have hstep := catSet_pairGet acc k p.1 p.2 acc1 hcs
        refine ⟨r, by simp only [diffEntryLoop, ha2k, hcs, hr], hwfr, fun i w => ?_⟩
        rw [hchar i w]
        by_cases hik : i = k
        · subst hik
          rw [if_pos rfl, if_pos rfl, hbnone]
          by_cases hw : p.1 = w
          · subst hw
            rw [hrest_none]
            simp only [exclPick, oor]
            rw [hstep i p.1, if_pos ⟨rfl, rfl⟩]
            simp [alistGet]
          · have hhead : alistGet (p :: rest) w = alistGet rest w := by
              simp [alistGet, hw]
            have hwp : ¬ (i = i ∧ w = p.1) := fun hh => hw hh.2.symm
            rw [hhead, hstep i w, if_neg hwp]
        · rw [if_neg hik, if_neg hik, hstep i w,
            if_neg (fun hh : i = k ∧ w = p.1 => hik hh.1)]
    | some e2 =>
      have hbval : ∀ w, pairGet a2 k w = alistGet e2 w := fun w => by simp [pairGet, ha2k]
      by_cases hguard : (alistGet e2 p.1).isSome
      · obtain ⟨s2, hs2⟩ := Option.isSome_iff_exists.mp hguard
        rcases ih acc hacc hrest_nd hrest_pos with ⟨r, hr, hwfr, hchar⟩
        refine ⟨r, by simp only [diffEntryLoop, ha2k, hguard, if_true, hr], hwfr,
          fun i w => ?_⟩
        rw [hchar i w]
        by_cases hik : i = k
        · subst hik
          rw [if_pos rfl, if_pos rfl]
          by_cases hw : p.1 = w
          · subst hw
            rw [hrest_none, hbval, hs2]
            simp [exclPick]
          · have hhead : alistGet (p :: rest) w = alistGet rest w := by
              simp [alistGet, hw]
            rw [hhead]
        · simp [hik]
      · have hnone : alistGet e2 p.1 = none := by
          cases h2 : alistGet e2 p.1 with
          | none => rfl
          | some s2 => rw [h2] at hguard; simp at hguard
        have hsome := catSet_some acc k p.1 p.2 hppos
        cases hcs : catSet acc k p.1 p.2 with
        | none => rw [hcs] at hsome; simp at hsome
        | some acc1 =>
          have hacc1 : CatalogWF acc1 := catSet_WF acc k p.1 p.2 acc1 hacc hppos hcs
          rcases ih acc1 hacc1 hrest_nd hrest_pos with ⟨r, hr, hwfr, hchar⟩
          have hstep := catSet_pairGet acc k p.1 p.2 acc1 hcs
          refine ⟨r, by simp [diffEntryLoop, ha2k, hnone, hcs, hr], hwfr, fun i w => ?_⟩
          rw [hchar i w]
          by_cases hik : i = k
          · subst hik
            rw [if_pos rfl, if_pos rfl]
            by_cases hw : p.1 = w
            · subst hw
              rw [hrest_none, hbval, hnone]
              simp only [exclPick, oor]
              rw [hstep i p.1, if_pos ⟨rfl, rfl⟩]
              simp [alistGet]
            · have hhead : alistGet (p :: rest) w = alistGet rest w := by
                simp [alistGet, hw]
              have hwp : ¬ (i = i ∧ w = p.1) := fun hh => hw hh.2.symm
              rw [hhead, hstep i w, if_neg hwp]
          · rw [if_neg hik, if_neg hik, hstep i w,
              if_neg (fun hh : i = k ∧ w = p.1 => hik hh.1)]

theorem diffLoop_char (a2 : Catalog) :
    ∀ (l : List (String × Entry)) (acc : Catalog), CatalogWF acc →
      (keysOf l).Nodup →
      (∀ kv ∈ l, (keysOf kv.2).Nodup ∧ ∀ p ∈ kv.2, 0 < p.1) →
    ∃ r, diffLoop a2 acc l = some r ∧ CatalogWF r ∧
      ∀ i w, pairGet r i w =
        oor (exclPick (pairGet l i w) (pairGet a2 i w)) (pairGet acc i w) := by
  intro l
  induction l with
  | nil =>
    intro acc hacc _ _
    refine ⟨acc, rfl, hacc, fun i w => ?_⟩
    rw [pairGet_nil, exclPick_none_left]
    rfl
  | cons kv rest ih =>
    intro acc hacc hnd hent
    simp only [keysOf, List.map_cons, List.nodup_cons] at hnd
    obtain ⟨hke, hkp⟩ := hent kv (List.mem_cons_self _ _)
    rcases diffEntryLoop_char a2 kv.1 kv.2 acc hacc hke hkp with ⟨acc1, h1, hacc1, hchar1⟩
    rcases ih acc1 hacc1 (by simpa [keysOf] using hnd.2)
        (fun q hq => hent q (List.mem_cons_of_mem _ hq)) with ⟨r, hr, hwfr, hchar⟩
    refine ⟨r, by simp only [diffLoop, h1, hr], hwfr, fun i w => ?_⟩
    rw [hchar i w, hchar1 i w, pairGet_cons]
    by_cases hik : kv.1 = i
    · rw [if_pos hik, if_pos hik.symm]
      have hrest : pairGet rest i w = none :=
        pairGet_none_of_not_mem rest i w (by rw [← hik]; simpa [keysOf] using hnd.1)
      rw [hrest, exclPick_none_left, hik]
      rfl
    · rw [if_neg hik, if_neg (fun hh : i = kv.1 => hik hh.symm)]

/-- Lookup characterization of `Catalog.difference` (symmetric
difference; each exclusive pair keeps its own operand's payload). -/
theorem difference_char (a b : Catalog) (ha : CatalogWF a) (hb : CatalogWF b) :
    ∃ d, Catalog.difference a b = some d ∧ CatalogWF d ∧
      ∀ i w, pairGet d i w =
        oor (exclPick (pairGet b i w) (pairGet a i w))
          (exclPick (pairGet a i w) (pairGet b i w)) := by
  rcases diffLoop_char b a [] ⟨by simp [keysOf], by simp⟩ ha.1
    (fun kv h => ⟨(ha.2 kv h).2.1, (ha.2 kv h).2.2⟩) with ⟨c1, h1, hwf1, hchar1⟩
  rcases diffLoop_char a b c1 hwf1 hb.1
    (fun kv h => ⟨(hb.2 kv h).2.1, (hb.2 kv h).2.2⟩) with ⟨d, h2, hwfd, hchar⟩
  refine ⟨d, by simp only [Catalog.difference, h1, h2], hwfd, fun i w => ?_⟩
  rw [hchar i w, hchar1 i w, pairGet_nil, oor_none_right]

theorem diffEntryLoop_all_present (a2 : Catalog) (k : String) :
    ∀ (l : List (Int × Source)) (acc : Catalog),
      (∀ p ∈ l, (pairGet a2 k p.1).isSome) →
      diffEntryLoop a2 k acc l = some acc := by
  intro l
  induction l with
  | nil => intro acc _; rfl
  | cons p rest ih =>
    intro acc hall
    have hp := hall p (List.mem_cons_self _ _)
    cases ha2k : alistGet a2 k with
    | none =>
      rw [show pairGet a2 k p.1 = none from by simp [pairGet, ha2k]] at hp
      simp at hp
    | some e2 =>
      have hguard : (alistGet e2 p.1).isSome := by
        rw [show pairGet a2 k p.1 = alistGet e2 p.1 from by simp [pairGet, ha2k]] at hp
        exact hp
      simp only [diffEntryLoop, ha2k, hguard, if_true]
      exact ih acc (fun q hq => hall q (List.mem_cons_of_mem _ hq))

theorem diffLoop_all_present (a2 : Catalog) :
    ∀ (l : List (String × Entry)) (acc : Catalog),
      (∀ kv ∈ l, ∀ p ∈ kv.2, (pairGet a2 kv.1 p.1).isSome) →
      diffLoop a2 acc l = some acc := by
  intro l
  induction l with
  | nil => intro acc _; rfl
  | cons kv rest ih =>
    intro acc hall
    have h1 : diffEntryLoop a2 kv.1 acc kv.2 = some acc :=
      diffEntryLoop_all_present a2 kv.1 kv.2 acc (hall kv (List.mem_cons_self _ _))
    simp only [diffLoop, h1]
    exact ih acc (fun q hq => hall q (List.mem_cons_of_mem _ hq))

/-- `difference(A, A)` is the empty catalog. -/
theorem difference_self (a : Catalog) (ha : CatalogWF a) :
    Catalog.difference a a = some [] := by
  have hall : ∀ kv ∈ a, ∀ p ∈ kv.2, (pairGet a kv.1 p.1).isSome :=
    fun kv hkv p hp => by rw [pairGet_of_mem a ha kv hkv p hp]; rfl
  have h1 := diffLoop_all_present a a [] hall
  simp only [Catalog.difference, h1]

theorem join_of_disjoint (a b : Catalog) (h : DisjointPairs a b) :
    Catalog.join a b = Catalog.union a b := by
  unfold Catalog.join
  rw [intersection_disjoint a b h]
  simp

theorem join_of_not_disjoint (a b : Catalog) (ha : CatalogWF a) (hb : CatalogWF b)
    (h : ¬ DisjointPairs a b) : Catalog.join a b = none := by
  unfold DisjointPairs at h
  push_neg at h
  rcases h with ⟨kv, hkv, p, hp, hne⟩
  by_cases hagree : SharedAgree a b
  · rcases intersection_char a b ha hb hagree with ⟨r, hr, hwfr, hchar⟩
    have hpa : pairGet a kv.1 p.1 = some p.2 := pairGet_of_mem a ha kv hkv p hp
    rcases Option.ne_none_iff_exists'.mp hne with ⟨s, hs⟩
    have hrp : pairGet r kv.1 p.1 = some p.2 := by
      rw [hchar, hpa, hs]
      rfl
    have hrne : r ≠ [] := by
      intro hnil
      rw [hnil, pairGet_nil] at hrp
      exact absurd hrp (by simp)
    unfold Catalog.join
    simp only [hr]
    rw [if_neg (by simpa [List.length_eq_zero] using hrne)]
  · unfold Catalog.join
    rw [intersection_none_of_not_agree a b ha hagree]

theorem sliceEntryLoop_char (e : Entry) (k : String) (hnd : (keysOf e).Nodup)
    (hpos : ∀ p ∈ e, 0 < p.1) :
    ∀ (ws : List Int) (acc : Catalog), CatalogWF acc →
      ws.Nodup → (∀ w ∈ ws, w ∈ keysOf e) →
    ∃ r, sliceEntryLoop e k acc ws = some r ∧ CatalogWF r ∧
      ∀ i w, pairGet r i w =
        if i = k ∧ w ∈ ws then alistGet e w else pairGet acc i w := by
  intro ws
  induction ws with
  | nil =>
    intro acc hacc _ _
    refine ⟨acc, rfl, hacc, fun i w => ?_⟩
    simp
  | cons v rest ih =>
    intro acc hacc hnd2 hsub
    rw [List.nodup_cons] at hnd2
    have hvmem : v ∈ keysOf e := hsub v (List.mem_cons_self _ _)
    obtain ⟨s, hs⟩ := Option.isSome_iff_exists.mp (alistGet_isSome_of_mem_keys e v hvmem)
    have hvpos : 0 < v := by
      simp only [keysOf, List.mem_map] at hvmem
      rcases hvmem with ⟨p, hpmem, hpe⟩
      exact hpe ▸ hpos p hpmem
    have hget : entryGet e v = some s := by
      rw [entryGet_pos e v (by omega)]
      exact hs
    have hsome := catSet_some acc k v s hvpos
    cases hcs : catSet acc k v s with
    | none => rw [hcs] at hsome; simp at hsome
    | some acc1 =>
      have hacc1 : CatalogWF acc1 := catSet_WF acc k v s acc1 hacc hvpos hcs
      rcases ih acc1 hacc1 hnd2.2 (fun x hx => hsub x (List.mem_cons_of_mem _ hx)) with
        ⟨r, hr, hwfr, hchar⟩
      have hstep := catSet_pairGet acc k v s acc1 hcs
      refine ⟨r, by simp only [sliceEntryLoop, hget, hcs, hr], hwfr, fun i w => ?_⟩
      rw [hchar i w, hstep i w]
      by_cases hik : i = k
      · subst hik
        by_cases hw : w = v
        · subst hw
          rw [if_neg (fun hh : i = i ∧ w ∈ rest => hnd2.1 hh.2), if_pos ⟨rfl, rfl⟩,
            if_pos ⟨rfl, List.mem_cons_self _ _⟩, hs]
        · by_cases hwr : w ∈ rest
          · rw [if_pos ⟨rfl, hwr⟩, if_pos ⟨rfl, List.mem_cons_of_mem _ hwr⟩]
          · rw [if_neg (fun hh : i = i ∧ w ∈ rest => hwr hh.2),
              if_neg (fun hh : i = i ∧ w = v => hw hh.2),
              if_neg (fun hh : i = i ∧ w ∈ v :: rest => by
                rcases List.mem_cons.mp hh.2 with h2 | h2
                · exact hw h2
                · exact hwr h2)]
      · rw [if_neg (fun hh : i = k ∧ w ∈ rest => hik hh.1),
          if_neg (fun hh : i = k ∧ w = v => hik hh.1),
          if_neg (fun hh : i = k ∧ w ∈ v :: rest => hik hh.1)]

theorem sliceLoop_char (c : Catalog) (hc : CatalogWF c) :
    ∀ (ks : List String) (acc : Catalog), CatalogWF acc →
      (∀ k ∈ ks, (alistGet c k).isSome) →
    ∃ r, sliceLoop c acc ks = some r ∧ CatalogWF r ∧
      ∀ i w, pairGet r i w =
        if i ∈ ks then oor (pairGet c i w) (pairGet acc i w) else pairGet acc i w := by
  intro ks
  induction ks with
  | nil =>
    intro acc hacc _
    refine ⟨acc, rfl, hacc, fun i w => ?_⟩
    simp
  | cons k rest ih =>
    intro acc hacc hall
    obtain ⟨e, he⟩ := Option.isSome_iff_exists.mp (hall k (List.mem_cons_self _ _))
    have hwf : EntryWF e := hc.2 (k, e) (alistGet_mem c k e he)
    have hcval : ∀ w, pairGet c k w = alistGet e w := fun w => by simp [pairGet, he]
    rcases sliceEntryLoop_char e k hwf.2.1 hwf.2.2 (keysOf e) acc hacc hwf.2.1
        (fun x hx => hx) with ⟨acc1, h1, hacc1, hchar1⟩
    rcases ih acc1 hacc1 (fun x hx => hall x (List.mem_cons_of_mem _ hx)) with
      ⟨r, hr, hwfr, hchar⟩
    refine ⟨r, by simp only [sliceLoop, he, h1, hr], hwfr, fun i w => ?_⟩
    rw [hchar i w, hchar1 i w]
    by_cases hik : i = k
    · subst hik
      have hmemiff : ∀ x : Option Source, (if i = i ∧ w ∈ keysOf e then alistGet e w
          else x) = oor (alistGet e w) x ∨ True := fun x => Or.inr trivial
      by_cases hir : i ∈ rest
      · rw [if_pos hir, if_pos (List.mem_cons_self _ _), hcval]
        by_cases hwk : w ∈ keysOf e
        · obtain ⟨s, hs⟩ := Option.isSome_iff_exists.mp (alistGet_isSome_of_mem_keys e w hwk)
          rw [if_pos ⟨rfl, hwk⟩, hs]
          rfl
        · rw [if_neg (fun hh : i = i ∧ w ∈ keysOf e => hwk hh.2),
            alistGet_none_of_not_mem_keys e w hwk]
      · rw [if_neg hir, if_pos (List.mem_cons_self _ _), hcval]
        by_cases hwk : w ∈ keysOf e
        · obtain ⟨s, hs⟩ := Option.isSome_iff_exists.mp (alistGet_isSome_of_mem_keys e w hwk)
          rw [if_pos ⟨rfl, hwk⟩, hs]
          rfl
        · rw [if_neg (fun hh : i = i ∧ w ∈ keysOf e => hwk hh.2),
            alistGet_none_of_not_mem_keys e w hwk]
          rfl
    · have hne : ¬ (i = k ∧ w ∈ keysOf e) := fun hh => hik hh.1
      rw [if_neg hne]
      by_cases hir : i ∈ rest
      · rw [if_pos hir, if_pos (List.mem_cons_of_mem _ hir)]
      · rw [if_neg hir, if_neg (by
          intro hh
          rcases List.mem_cons.mp hh with h2 | h2
          · exact hik h2
          · exact hir h2)]

theorem sliceLoop_none_of_missing (c : Catalog) (hc : CatalogWF c) :
    ∀ (ks : List String) (acc : Catalog), CatalogWF acc →
      (∃ k ∈ ks, alistGet c k = none) →
      sliceLoop c acc ks = none := by
  intro ks
  induction ks with
  | nil =>
    intro acc _ h
    rcases h with ⟨k, hk, _⟩
    simp at hk
  | cons k rest ih =>
    intro acc hacc h
    cases he : alistGet c k with
    | none => simp only [sliceLoop, he]
    | some e =>
      have hwf : EntryWF e := hc.2 (k, e) (alistGet_mem c k e he)
      rcases sliceEntryLoop_char e k hwf.2.1 hwf.2.2 (keysOf e) acc hacc hwf.2.1
          (fun x hx => hx) with ⟨acc1, h1, hacc1, _⟩
      have hrest : ∃ x ∈ rest, alistGet c x = none := by
        rcases h with ⟨x, hx, hxn⟩
        rcases List.mem_cons.mp hx with h2 | h2
        · rw [h2, he] at hxn
          exact absurd hxn (by simp)
        · exact ⟨x, h2, hxn⟩
      simp only [sliceLoop, he, h1]
      exact ih acc1 hacc1 hrest

theorem getitem_present (c : Catalog) (hc : CatalogWF c) (id : String) (e : Entry)
    (he : alistGet c id = some e) :
    ∃ s, alistGet e (maxKey e) = some s ∧
      Catalog.getitem c id = some (Lookup.found ⟨id, maxKey e, s, e, c⟩) ∧
      (maxKey e, s) ∈ e ∧ (∀ p ∈ e, p.1 ≤ maxKey e) := by
  have hwf : EntryWF e := hc.2 (id, e) (alistGet_mem c id e he)
  obtain ⟨s, hs⟩ := Option.isSome_iff_exists.mp
    (alistGet_isSome_of_mem_keys e (maxKey e) (maxKey_mem_keys e hwf.1))
  refine ⟨s, hs, ?_, alistGet_mem e (maxKey e) s hs, fun p hp => le_maxKey_of_mem e p hp⟩
  simp [Catalog.getitem, he, mkCatalogSource, entryGet, hs]

theorem getitem_missing (c : Catalog) (id : String) (he : alistGet c id = none) :
    Catalog.getitem c id = some (Lookup.dummy id c) := by
  simp only [Catalog.getitem, he]

theorem iterLoop_char (c : Catalog) :
    ∀ (l : List (String × Entry)),
      (∀ kv ∈ l, (mkCatalogSource c kv.1 kv.2).isSome) →
      ∃ out, iterLoop c l = some out ∧
        ∀ kv ∈ l, ∃ cs, mkCatalogSource c kv.1 kv.2 = some cs ∧ (kv.1, cs) ∈ out := by
  intro l
  induction l with
  | nil =>
    intro _
    exact ⟨[], rfl, fun kv hkv => by simp at hkv⟩
  | cons kv0 rest ih =>
    intro hall
    obtain ⟨cs0, hcs0⟩ := Option.isSome_iff_exists.mp (hall kv0 (List.mem_cons_self _ _))
    rcases ih (fun q hq => hall q (List.mem_cons_of_mem _ hq)) with ⟨out, hout, hchar⟩
    refine ⟨(kv0.1, cs0) :: out, by simp only [iterLoop, hcs0, hout], fun kv hkv => ?_⟩
    rcases List.mem_cons.mp hkv with h2 | h2
    · subst h2
      exact ⟨cs0, hcs0, List.mem_cons_self _ _⟩
    · rcases hchar kv h2 with ⟨cs, hcs, hmem⟩
      exact ⟨cs, hcs, List.mem_cons_of_mem _ hmem⟩

theorem catalogWF_nil : CatalogWF [] := ⟨by simp [keysOf], by simp⟩

/-- C1: for every pair of well-formed catalogs A and B, `union(A, B)`
succeeds and returns a catalog holding exactly the `(identifier,
version)` pairs present in A or in B; for every pair defined in B the
result carries B's payload (B wins on conflict), and pairs only in A
keep A's payload. -/
theorem C1_union_spec (a b : Catalog) (ha : CatalogWF a) (hb : CatalogWF b) :
    ∃ u, Catalog.union a b = some u ∧
      (∀ i w, (pairGet u i w).isSome ↔ ((pairGet a i w).isSome ∨ (pairGet b i w).isSome)) ∧
      (∀ i w s, pairGet b i w = some s → pairGet u i w = some s) ∧
      (∀ i w s, pairGet a i w = some s → pairGet b i w = none → pairGet u i w = some s) := by
  rcases union_char a b ha hb with ⟨u, hu, _, hchar⟩
  refine ⟨u, hu, fun i w => ?_, fun i w s hs => ?_, fun i w s hs hn => ?_⟩
  · rw [hchar i w]
    cases hb2 : pairGet b i w <;> cases ha2 : pairGet a i w <;> simp [oor]
  · rw [hchar i w, hs]
    rfl
  · rw [hchar i w, hn, hs]
    rfl

/-- C2: for every pair of well-formed catalogs, when every shared
`(identifier, version)` pair carries equal payloads in both,
`intersection(A, B)` succeeds and holds exactly the pairs present in
both; if any shared pair carries different payloads the assert fails
fatally (no catalog is returned). -/
theorem C2_intersection_spec (a b : Catalog) (ha : CatalogWF a) (hb : CatalogWF b) :
    (SharedAgree a b →
      ∃ r, Catalog.intersection a b = some r ∧
        ∀ i w, (pairGet r i w).isSome ↔ ((pairGet a i w).isSome ∧ (pairGet b i w).isSome)) ∧
    (¬ SharedAgree a b → Catalog.intersection a b = none) := by
  constructor
  · intro hagree
    rcases intersection_char a b ha hb hagree with ⟨r, hr, _, hchar⟩
    refine ⟨r, hr, fun i w => ?_⟩
    rw [hchar i w]
    cases pairGet a i w <;> cases pairGet b i w <;> simp [interPick]
  · exact intersection_none_of_not_agree a b ha

/-- C3: for every pair of well-formed catalogs, if A and B share no
`(identifier, version)` pair then `join(A, B)` succeeds and equals
`union(A, B)`; if they share any pair, `join(A, B)` fails fatally and
returns nothing. -/
theorem C3_join_spec (a b : Catalog) (ha : CatalogWF a) (hb : CatalogWF b) :
    (DisjointPairs a b →
      Catalog.join a b = Catalog.union a b ∧ (Catalog.union a b).isSome) ∧
    (¬ DisjointPairs a b → Catalog.join a b = none) := by
  constructor
  · intro h
    rcases union_char a b ha hb with ⟨u, hu, _, _⟩
    exact ⟨join_of_disjoint a b h, by rw [hu]; rfl⟩
  · exact join_of_not_disjoint a b ha hb

/-- C4: for every pair of well-formed catalogs, `difference(A, B)`
succeeds and holds exactly the `(identifier, version)` pairs present in
exactly one of A or B (symmetric difference); in particular
`difference(A, A)` is the empty catalog. -/
theorem C4_difference_spec (a b : Catalog) (ha : CatalogWF a) (hb : CatalogWF b) :
    (∃ d, Catalog.difference a b = some d ∧
      ∀ i w, (pairGet d i w).isSome =
        Bool.xor (pairGet a i w).isSome (pairGet b i w).isSome) ∧
    Catalog.difference a a = some [] := by
  constructor
  · rcases difference_char a b ha hb with ⟨d, hd, _, hchar⟩
    refine ⟨d, hd, fun i w => ?_⟩
    rw [hchar i w]
    cases pairGet a i w <;> cases pairGet b i w <;> simp [exclPick, oor]
  · exact difference_self a ha

/-- C5: for every well-formed catalog and identifier present in it,
indexing the catalog by that identifier returns the `CatalogSource`
whose version is the numerically greatest version key stored under that
identifier, iterating the catalog yields the same maximum-version entry
for it, and the sentinel `-1` is never a stored version key. -/
theorem C5_getitem_max_version (c : Catalog) (hc : CatalogWF c) (id : String) (e : Entry)
    (he : alistGet c id = some e) :
    ∃ cs : CatalogSource,
      Catalog.getitem c id = some (Lookup.found cs) ∧
      (cs.version, cs.source) ∈ e ∧ (∀ p ∈ e, p.1 ≤ cs.version) ∧
      (∀ p ∈ e, p.1 ≠ -1) ∧
      (∃ out, Catalog.iter c = some out ∧ (id, cs) ∈ out) := by
  rcases getitem_present c hc id e he with ⟨s, hs, hget, hmem, hle⟩
  have hwf : EntryWF e := hc.2 (id, e) (alistGet_mem c id e he)
  have hmk : ∀ kv : String × Entry, kv ∈ c → (mkCatalogSource c kv.1 kv.2).isSome := by
    intro kv hkv
    have hwf2 := hc.2 kv hkv
    obtain ⟨s2, hs2⟩ := Option.isSome_iff_exists.mp
      (alistGet_isSome_of_mem_keys kv.2 (maxKey kv.2) (maxKey_mem_keys kv.2 hwf2.1))
    simp [mkCatalogSource, entryGet, hs2]
  rcases iterLoop_char c c hmk with ⟨out, hout, hchar⟩
  rcases hchar (id, e) (alistGet_mem c id e he) with ⟨cs2, hcs2, hmemout⟩
  have hcs2eq : cs2 = ⟨id, maxKey e, s, e, c⟩ := by
    rw [show mkCatalogSource c (id, e).1 (id, e).2 =
        (entryGet e (-1)).map (fun s => ⟨id, maxKey e, s, e, c⟩) from rfl] at hcs2
    rw [show entryGet e (-1) = alistGet e (maxKey e) from by simp [entryGet], hs] at hcs2
    simp only [Option.map_some', Option.some_inj] at hcs2
    exact hcs2.symm
  refine ⟨⟨id, maxKey e, s, e, c⟩, hget, hmem, hle, ?_, ⟨out, hout, ?_⟩⟩
  · intro p hp
    have := hwf.2.2 p hp
    omega
  · rw [← hcs2eq]
    exact hmemout

/-- C6: for every catalog and identifier not present in it, reading by
that identifier never raises: it returns a `DummyCatalogSource`
placeholder carrying the identifier and the target catalog, and a
contains-check on that placeholder reports false for every index. -/
theorem C6_missing_read (c : Catalog) (id : String) (he : alistGet c id = none) :
    Catalog.getitem c id = some (Lookup.dummy id c) ∧
    ∀ v : Int, Lookup.containsVersion (Lookup.dummy id c) v = false :=
  ⟨getitem_missing c id he, fun _ => rfl⟩

/-- C7: for every catalog, identifier not present in it, source and
integer version, assigning through the placeholder path with a positive
version materializes exactly one entry for that identifier at that
version wrapping the source, leaving every other identifier untouched;
with a non-positive version the assignment fails the assert and no entry
is created. -/
theorem C7_dummy_setitem (c : Catalog) (id : String) (v : Int) (s : Source)
    (he : alistGet c id = none) :
    (0 < v → ∃ c2, catSet c id v s = some c2 ∧ alistGet c2 id = some [(v, s)] ∧
      ∀ j, j ≠ id → alistGet c2 j = alistGet c j) ∧
    (v ≤ 0 → catSet c id v s = none) := by
  constructor
  · intro hv
    refine ⟨alistSet c id [(v, s)], ?_, alistGet_set_self c id [(v, s)],
      fun j hj => alistGet_set_ne c id [(v, s)] j hj⟩
    simp only [catSet, he, if_pos hv]
  · intro hv
    simp only [catSet, he, if_neg (by omega : ¬ 0 < v)]

/-- C8: for every well-formed catalog and identifier list, if every
identifier is present then `slice` succeeds and holds exactly the named
identifiers, each with every version (and payload) it has in the
catalog; if any identifier is absent, `slice` fails fatally. -/
theorem C8_slice_spec (c : Catalog) (hc : CatalogWF c) (ks : List String) :
    ((∀ k ∈ ks, (alistGet c k).isSome) →
      ∃ r, Catalog.slice c ks = some r ∧
        ∀ i w, pairGet r i w = if i ∈ ks then pairGet c i w else none) ∧
    ((∃ k ∈ ks, alistGet c k = none) → Catalog.slice c ks = none) := by
  constructor
  · intro hall
    rcases sliceLoop_char c hc ks [] catalogWF_nil hall with ⟨r, hr, _, hchar⟩
    refine ⟨r, hr, fun i w => ?_⟩
    rw [hchar i w, pairGet_nil]
    by_cases hik : i ∈ ks
    · rw [if_pos hik, if_pos hik, oor_none_right]
    · rw [if_neg hik, if_neg hik]
  · intro h
    exact sliceLoop_none_of_missing c hc ks [] catalogWF_nil h

/-- C9: driver resolution looks up a driver type by name in the plugin
registry; on a match it constructs a driver from the owning catalog and
the stored kwargs merged with the overrides (overrides win on key
conflict); with no match it raises a value error naming the missing
driver. -/
theorem C9_get_driver_spec (plugins : List (List DriverCls)) (cs : CatalogSource)
    (kw : List (String × String)) :
    (∀ d, findDriver plugins cs.source.driver_name = some d →
      get_driver plugins cs kw =
        Except.ok ⟨d, cs.catalog, dictMerge cs.source.driver_kwargs kw⟩ ∧
      d.name = cs.source.driver_name ∧
      (∀ k, alistGet (dictMerge cs.source.driver_kwargs kw) k =
        oor (alistGet kw k) (alistGet cs.source.driver_kwargs k))) ∧
    (findDriver plugins cs.source.driver_name = none →
      get_driver plugins cs kw =
        Except.error ("Driver " ++ cs.source.driver_name ++ " not found.")) := by
  constructor
  · intro d hd
    exact ⟨by simp only [get_driver, hd], findDriver_name _ _ _ hd,
      fun k => alistGet_dictMerge _ _ k⟩
  · intro hd
    simp only [get_driver, hd]

/-- C10: for every catalog, identifier already present in it and
source, the direct assignment `catalog[identifier] = source` replaces
the entire entry: afterwards the identifier maps to the single version 1
wrapping the source, every previously stored version is gone, and other
identifiers are untouched. -/
theorem C10_setitem_replaces (c : Catalog) (id : String) (s : Source) (e : Entry)
    (he : alistGet c id = some e) :
    alistGet (Catalog.setDirect c id s) id = some [(1, s)] ∧
    (∀ v, pairGet (Catalog.setDirect c id s) id v = if v = 1 then some s else none) ∧
    (∀ j, j ≠ id → alistGet (Catalog.setDirect c id s) j = alistGet c j) := by
  refine ⟨alistGet_set_self c id [(1, s)], fun v => ?_,
    fun j hj => alistGet_set_ne c id [(1, s)] j hj⟩
  simp only [pairGet, Catalog.setDirect, alistGet_set_self]
  by_cases hv : v = 1
  · subst hv
    simp [alistGet]
  · have h1v : ¬ (1 : Int) = v := fun hh => hv hh.symm
    simp [alistGet, h1v, hv]

/-- A sample CSV-backed source. -/
def srcX : Source := ⟨"csv", [("path", "a.csv")], []⟩

/-- A sample JSON-backed source. -/
def srcY : Source := ⟨"json", [("path", "b.json")], [("owner", "t")]⟩

/-- A second sample CSV-backed source. -/
def srcZ : Source := ⟨"csv", [("path", "c.csv")], []⟩

/-- A sample catalog with two identifiers, one of them two-versioned. -/
def catA : Catalog := [("ds1", [(1, srcX), (2, srcY)]), ("ds2", [(1, srcZ)])]

/-- A sample catalog sharing the pair `("ds2", 1)` with `catA` but with a
different payload there. -/
def catB : Catalog := [("ds2", [(1, srcY)]), ("ds3", [(3, srcX)])]

/-- A sample catalog disjoint from `catA` on `(identifier, version)`
pairs. -/
def catD : Catalog := [("ds3", [(1, srcY)])]

/-- A plugin registry contributing the driver types `csv` and `json`. -/
def demoPlugins : List (List DriverCls) := [[⟨"csv"⟩, ⟨"json"⟩]]

/-- A catalog source whose driver name matches no registered driver. -/
def csNX : CatalogSource :=
  ⟨"ds1", 1, ⟨"nonexistent", [("a", "1")], []⟩, [(1, ⟨"nonexistent", [("a", "1")], []⟩)], []⟩

theorem C1_union_witness :
    CatalogWF catA ∧ CatalogWF catB ∧
    (∃ u, Catalog.union catA catB = some u ∧
      (∀ i w, (pairGet u i w).isSome ↔
        ((pairGet catA i w).isSome ∨ (pairGet catB i w).isSome)) ∧
      (∀ i w s, pairGet catB i w = some s → pairGet u i w = some s) ∧
      (∀ i w s, pairGet catA i w = some s → pairGet catB i w = none →
        pairGet u i w = some s)) :=
  ⟨by decide, by decide, C1_union_spec catA catB (by decide) (by decide)⟩

theorem C2_intersection_witness :
    CatalogWF catA ∧ CatalogWF catB ∧
    ((SharedAgree catA catB →
      ∃ r, Catalog.intersection catA catB = some r ∧
        ∀ i w, (pairGet r i w).isSome ↔
          ((pairGet catA i w).isSome ∧ (pairGet catB i w).isSome)) ∧
    (¬ SharedAgree catA catB → Catalog.intersection catA catB = none)) :=
  ⟨by decide, by decide, C2_intersection_spec catA catB (by decide) (by decide)⟩

theorem C3_join_witness :
    CatalogWF catA ∧ CatalogWF catD ∧
    ((DisjointPairs catA catD →
      Catalog.join catA catD = Catalog.union catA catD ∧
        (Catalog.union catA catD).isSome) ∧
    (¬ DisjointPairs catA catD → Catalog.join catA catD = none)) :=
  ⟨by decide, by decide, C3_join_spec catA catD (by decide) (by decide)⟩

theorem C4_difference_witness :
    CatalogWF catA ∧ CatalogWF catB ∧
    ((∃ d, Catalog.difference catA catB = some d ∧
      ∀ i w, (pairGet d i w).isSome =
        Bool.xor (pairGet catA i w).isSome (pairGet catB i w).isSome) ∧
    Catalog.difference catA catA = some []) :=
  ⟨by decide, by decide, C4_difference_spec catA catB (by decide) (by decide)⟩

theorem C5_getitem_witness :
    CatalogWF catA ∧ alistGet catA "ds1" = some [(1, srcX), (2, srcY)] ∧
    (∃ cs : CatalogSource,
      Catalog.getitem catA "ds1" = some (Lookup.found cs) ∧
      (cs.version, cs.source) ∈ [(1, srcX), (2, srcY)] ∧
      (∀ p ∈ [(1, srcX), (2, srcY)], p.1 ≤ cs.version) ∧
      (∀ p ∈ [(1, srcX), (2, srcY)], p.1 ≠ -1) ∧
      (∃ out, Catalog.iter catA = some out ∧ ("ds1", cs) ∈ out)) :=
  ⟨by decide, by decide,
    C5_getitem_max_version catA (by decide) "ds1" [(1, srcX), (2, srcY)] (by decide)⟩

theorem C6_missing_read_witness :
    alistGet catA "missing" = none ∧
    (Catalog.getitem catA "missing" = some (Lookup.dummy "missing" catA) ∧
      ∀ v : Int, Lookup.containsVersion (Lookup.dummy "missing" catA) v = false) :=
  ⟨by decide, C6_missing_read catA "missing" (by decide)⟩

theorem C7_dummy_setitem_witness :
    alistGet catA "ds9" = none ∧
    ((0 < (3 : Int) → ∃ c2, catSet catA "ds9" 3 srcZ = some c2 ∧
        alistGet c2 "ds9" = some [(3, srcZ)] ∧
        ∀ j, j ≠ "ds9" → alistGet c2 j = alistGet catA j) ∧
      ((3 : Int) ≤ 0 → catSet catA "ds9" 3 srcZ = none)) :=
  ⟨by decide, C7_dummy_setitem catA "ds9" 3 srcZ (by decide)⟩

theorem C8_slice_witness :
    CatalogWF catA ∧
    (((∀ k ∈ ["ds1"], (alistGet catA k).isSome) →
      ∃ r, Catalog.slice catA ["ds1"] = some r ∧
        ∀ i w, pairGet r i w = if i ∈ ["ds1"] then pairGet catA i w else none) ∧
    ((∃ k ∈ ["ds1"], alistGet catA k = none) → Catalog.slice catA ["ds1"] = none)) :=
  ⟨by decide, C8_slice_spec catA (by decide) ["ds1"]⟩

theorem C9_get_driver_witness :
    ((∀ d, findDriver demoPlugins csNX.source.driver_name = some d →
      get_driver demoPlugins csNX [] =
        Except.ok ⟨d, csNX.catalog, dictMerge csNX.source.driver_kwargs []⟩ ∧
      d.name = csNX.source.driver_name ∧
      (∀ k, alistGet (dictMerge csNX.source.driver_kwargs []) k =
        oor (alistGet ([] : List (String × String)) k)
          (alistGet csNX.source.driver_kwargs k))) ∧
    (findDriver demoPlugins csNX.source.driver_name = none →
      get_driver demoPlugins csNX [] =
        Except.error ("Driver " ++ csNX.source.driver_name ++ " not found."))) ∧
    get_driver demoPlugins csNX [] =
      Except.error ("Driver " ++ "nonexistent" ++ " not found.") :=
  ⟨C9_get_driver_spec demoPlugins csNX [],
    (C9_get_driver_spec demoPlugins csNX []).2 (by decide)⟩

theorem C10_setitem_witness :
    alistGet catA "ds1" = some [(1, srcX), (2, srcY)] ∧
    (alistGet (Catalog.setDirect catA "ds1" srcZ) "ds1" = some [(1, srcZ)] ∧
      (∀ v, pairGet (Catalog.setDirect catA "ds1" srcZ) "ds1" v =
        if v = 1 then some srcZ else none) ∧
      (∀ j, j ≠ "ds1" → alistGet (Catalog.setDirect catA "ds1" srcZ) j = alistGet catA j)) :=
  ⟨by decide, C10_setitem_replaces catA "ds1" srcZ [(1, srcX), (2, srcY)] (by decide)⟩
